import Mathlib

/-!
Shallow embedding of the namespace/type source reorganizer of mcp-dotnetdc.

Text is modelled as `List Char` (the inputs of interest are ASCII, where
JavaScript UTF-16 code units and Lean characters coincide).  The regular
expressions of the source are hand-compiled to deterministic scanners; for
each of them the relevant regex has no observable backtracking (argued at
the definition), so maximal-munch scanning is exact.  JavaScript `Map`
objects (insertion-ordered, `set` keeping the original slot of an existing
key) are modelled as ordered association lists.  Loops are modelled with
structural recursion on an explicit fuel argument that dominates the number
of iterations of the corresponding `while` loop.
-/

/-- JavaScript regex `\w`, i.e. `[A-Za-z0-9_]`. -/
def isWordChar (c : Char) : Bool := c.isAlphanum || c == '_'

/-- JavaScript regex `\s` (WhiteSpace and LineTerminator code points). -/
def isJsWs (c : Char) : Bool :=
  c == ' ' || c == '\t' || c == '\n' || c == '\r' || c.val == 0x0b || c.val == 0x0c ||
  c.val == 0xa0 || c.val == 0x1680 || (0x2000 ≤ c.val && c.val ≤ 0x200a) ||
  c.val == 0x2028 || c.val == 0x2029 || c.val == 0x202f || c.val == 0x205f ||
  c.val == 0x3000 || c.val == 0xfeff

/-- JavaScript LineTerminator code points (what multiline `^` and `$` anchor on). -/
def isLineTerm (c : Char) : Bool :=
  c == '\n' || c == '\r' || c.val == 0x2028 || c.val == 0x2029

/-- The literal `kw` occurs in `s` starting at position `p`. -/
def kwAt (s : List Char) (p : Nat) (kw : List Char) : Bool :=
  (s.drop p).take kw.length == kw

/-- JavaScript `s.slice(i, j)` for `0 ≤ i`, `0 ≤ j`. -/
def sliceL (s : List Char) (i j : Nat) : List Char := (s.take j).drop i

def idxFromGo (c : Char) : List Char → Nat → Option Nat
  | [], _ => none
  | x :: xs, i => if x == c then some i else idxFromGo c xs (i + 1)

/-- JavaScript `s.indexOf(c, start)` (`none` models the `-1` result). -/
def indexOfFrom (s : List Char) (c : Char) (start : Nat) : Option Nat :=
  idxFromGo c (s.drop start) start

/-- JavaScript `String.prototype.trim`. -/
def jsTrim (l : List Char) : List Char :=
  ((l.dropWhile isJsWs).reverse.dropWhile isJsWs).reverse

/-- Insertion-ordered string map, modelling a JavaScript `Map`. -/
abbrev SMap := List (List Char × List Char)

/-- JavaScript `Map.prototype.get` (`none` models `undefined`). -/
def mapGet (m : SMap) (k : List Char) : Option (List Char) :=
  match m with
  | [] => none
  | (k', v') :: rest => if k' == k then some v' else mapGet rest k

/-- JavaScript `Map.prototype.set`: update in place if the key exists, else append. -/
def mapSet (m : SMap) (k v : List Char) : SMap :=
  match m with
  | [] => [(k, v)]
  | (k', v') :: rest => if k' == k then (k', v) :: rest else (k', v') :: mapSet rest k v

/-- The sentinel key `"(global)"`. -/
def globalKey : List Char := "(global)".toList

inductive NsKind where
  | file
  | block
deriving DecidableEq, Repr

/-- A token produced by the namespace tokenizer: `{ index, name, kind }` plus the
regex `lastIndex` right after the `;`/`{` delimiter of the match. -/
structure NsTok where
  index : Nat
  name : List Char
  kind : NsKind
  after : Nat
deriving DecidableEq, Repr

/-- One attempt of `/\bnamespace\s+([A-Za-z_][A-Za-z0-9_\.]*)\s*(;|\{)/` at
position `p`.  The character classes of the regex are pairwise disjoint at
each juncture, so greedy maximal munch is exact and no backtracking arises. -/
def matchNsAt (s : List Char) (p : Nat) : Option NsTok :=
  let boundary : Bool := p == 0 || !isWordChar (s.getD (p - 1) ' ')
  if boundary && kwAt s p ("namespace".toList) then
    let r1 := s.drop (p + 9)
    let wsLen := (r1.takeWhile isJsWs).length
    if wsLen == 0 then none
    else
      let r2 := r1.drop wsLen
      match r2.head? with
      | none => none
      | some c =>
        if c.isAlpha || c == '_' then
          let idLen := (r2.takeWhile (fun ch => ch.isAlphanum || ch == '_' || ch == '.')).length
          let r3 := r2.drop idLen
          let ws2 := (r3.takeWhile isJsWs).length
          match (r3.drop ws2).head? with
          | some ';' => some ⟨p, r2.take idLen, NsKind.file, p + 9 + wsLen + idLen + ws2 + 1⟩
          | some '{' => some ⟨p, r2.take idLen, NsKind.block, p + 9 + wsLen + idLen + ws2 + 1⟩
          | _ => none
        else none
  else none

def nsFindGo (s : List Char) : Nat → Nat → Option NsTok
  | 0, _ => none
  | fuel + 1, p =>
    if p < s.length then
      match matchNsAt s p with
      | some t => some t
      | none => nsFindGo s fuel (p + 1)
    else none

/-- `exec` of the (global) namespace regex starting at `lastIndex = p`:
the leftmost match at a position `≥ p`. -/
def nsFind (s : List Char) (p : Nat) : Option NsTok :=
  nsFindGo s (s.length - p) p

def nsTokensGo (s : List Char) : Nat → Nat → List NsTok
  | 0, _ => []
  | fuel + 1, p =>
    match nsFind s p with
    | none => []
    | some t => t :: nsTokensGo s fuel t.after

/-- The token-collection loop `while ((match = nsRegex.exec(text)) !== null)`.
Every match consumes at least one character, so `s.length + 1` fuel dominates
the number of iterations. -/
def nsTokens (s : List Char) : List NsTok :=
  nsTokensGo s (s.length + 1) 0

def braceGo (text : List Char) : Nat → Nat → Int → Nat
  | 0, j, _ => j
  | fuel + 1, j, depth =>
    if j < text.length then
      let ch := text.getD j ' '
      if ch == '{' then braceGo text fuel (j + 1) (depth + 1)
      else if ch == '}' then
        (if depth - 1 == 0 then j + 1 else braceGo text fuel (j + 1) (depth - 1))
      else braceGo text fuel (j + 1) depth
    else j

/-- The brace-matching `while` loop of the block branch: starting at `j` with
the given depth, return the index just past the `}` that brings the depth to
zero, or the text length if none does. -/
def braceLoop (text : List Char) (j : Nat) (depth : Int) : Nat :=
  braceGo text (text.length - j) j depth

/-- The `append` helper: skip falsy (empty) chunks, otherwise concatenate the
trimmed chunk plus a newline onto the existing entry. -/
def appendChunk (m : SMap) (ns chunk : List Char) : SMap :=
  if chunk.isEmpty then m
  else mapSet m ns (((mapGet m ns).getD []) ++ jsTrim chunk ++ ['\n'])

/-- The token-processing `for` loop of `splitByNamespace`, with the cursor and
result map threaded through.  In the file-scoped branch the source reads
`const start = nsRegex.lastIndex`: the token-collection loop above it ended
with `exec` returning `null`, which resets `lastIndex` of a global regex to
`0`, so the slice always starts at offset 0. -/
def splitGo (text : List Char) : List NsTok → Nat → SMap → SMap × Nat
  | [], cursor, m => (m, cursor)
  | t :: rest, cursor, m =>
    match t.kind with
    | NsKind.file =>
      splitGo text rest
        (match rest with | [] => text.length | t2 :: _ => t2.index)
        (appendChunk m t.name
          (sliceL text 0 (match rest with | [] => text.length | t2 :: _ => t2.index)))
    | NsKind.block =>
      match indexOfFrom text '{' t.index with
      | none => splitGo text rest cursor m
      | some braceStart =>
        splitGo text rest (braceLoop text braceStart 0)
          (appendChunk m t.name
            (sliceL text (braceStart + 1) (braceLoop text braceStart 0 - 1)))

/-- The tail of `splitByNamespace`: text after the final cursor goes to `(global)`. -/
def splitTail (text : List Char) (r : SMap × Nat) : SMap :=
  if r.2 < text.length then appendChunk r.1 globalKey (sliceL text r.2 text.length) else r.1

/-- `splitByNamespace` of the decompiler module (src/unnamed/part_000, lines 59-88). -/
def splitByNamespace (text : List Char) : SMap :=
  match nsTokens text with
  | [] => [(globalKey, text)]
  | t0 :: rest =>
    splitTail text
      (splitGo text (t0 :: rest) 0
        (if 0 < t0.index then appendChunk [] globalKey (sliceL text 0 t0.index) else []))

def svcNsTokensGo (s : List Char) : Nat → Nat → List NsTok
  | 0, _ => []
  | fuel + 1, p =>
    match nsFind s p with
    | none => []
    | some t => t :: svcNsTokensGo s fuel t.after

def svcNsTokens (s : List Char) : List NsTok :=
  svcNsTokensGo s (s.length + 1) 0

def svcAppendChunk (m : SMap) (ns chunk : List Char) : SMap :=
  if chunk.isEmpty then m
  else mapSet m ns (((mapGet m ns).getD []) ++ jsTrim chunk ++ ['\n'])

def svcSplitGo (text : List Char) : List NsTok → Nat → SMap → SMap × Nat
  | [], cursor, m => (m, cursor)
  | t :: rest, cursor, m =>
    match t.kind with
    | NsKind.file =>
      svcSplitGo text rest
        (match rest with | [] => text.length | t2 :: _ => t2.index)
        (svcAppendChunk m t.name
          (sliceL text 0 (match rest with | [] => text.length | t2 :: _ => t2.index)))
    | NsKind.block =>
      match indexOfFrom text '{' t.index with
      | none => svcSplitGo text rest cursor m
      | some braceStart =>
        svcSplitGo text rest (braceLoop text braceStart 0)
          (svcAppendChunk m t.name
            (sliceL text (braceStart + 1) (braceLoop text braceStart 0 - 1)))

def svcSplitTail (text : List Char) (r : SMap × Nat) : SMap :=
  if r.2 < text.length then svcAppendChunk r.1 globalKey (sliceL text r.2 text.length) else r.1

/-- `DecompilerService._splitByNamespace` (src/index.js, lines 331-392), a
character-for-character duplicate of the module-level partitioner. -/
def svcSplitByNamespace (text : List Char) : SMap :=
  match svcNsTokens text with
  | [] => [(globalKey, text)]
  | t0 :: rest =>
    svcSplitTail text
      (svcSplitGo text (t0 :: rest) 0
        (if 0 < t0.index then svcAppendChunk [] globalKey (sliceL text 0 t0.index) else []))

/-- Companion of `splitGo` that records, instead of performing, the
`append` calls of the token-processing loop: the list of `(name, chunk)`
regions in encounter order, paired with the final cursor. -/
def goRegions (text : List Char) : List NsTok → Nat → List (List Char × List Char) × Nat
  | [], cursor => ([], cursor)
  | t :: rest, cursor =>
    match t.kind with
    | NsKind.file =>
      ((t.name, sliceL text 0 (match rest with | [] => text.length | t2 :: _ => t2.index)) ::
          (goRegions text rest (match rest with | [] => text.length | t2 :: _ => t2.index)).1,
        (goRegions text rest (match rest with | [] => text.length | t2 :: _ => t2.index)).2)
    | NsKind.block =>
      match indexOfFrom text '{' t.index with
      | none => goRegions text rest cursor
      | some braceStart =>
        ((t.name, sliceL text (braceStart + 1) (braceLoop text braceStart 0 - 1)) ::
            (goRegions text rest (braceLoop text braceStart 0)).1,
          (goRegions text rest (braceLoop text braceStart 0)).2)

def regionsTail (text : List Char) (r : List (List Char × List Char) × Nat) :
    List (List Char × List Char) :=
  if r.2 < text.length then r.1 ++ [(globalKey, sliceL text r.2 text.length)] else r.1

/-- All `(name, chunk)` append events of one `splitByNamespace` run, in
encounter order (leading `(global)` region, per-token regions, trailing
`(global)` region). -/
def regionsOf (text : List Char) : List (List Char × List Char) :=
  match nsTokens text with
  | [] => []
  | t0 :: rest =>
    (if 0 < t0.index then [(globalKey, sliceL text 0 t0.index)] else []) ++
      regionsTail text (goRegions text (t0 :: rest) 0)

/-- Replaying a list of append events against a map. -/
def foldAppend (m : SMap) (rs : List (List Char × List Char)) : SMap :=
  rs.foldl (fun acc e => appendChunk acc e.1 e.2) m

/-- The chunks of the events for key `k` that actually modify the map
(the `append` helper ignores empty chunks). -/
def chunksFor (rs : List (List Char × List Char)) (k : List Char) : List (List Char) :=
  (rs.filter (fun e => e.1 == k && !e.2.isEmpty)).map Prod.snd

/-- Concatenation of trimmed chunks, each followed by a newline. -/
def concatChunks (cs : List (List Char)) : List Char :=
  (cs.map (fun c => jsTrim c ++ ['\n'])).flatten

/-- Net brace depth of one character. -/
def braceDelta (c : Char) : Int := if c == '{' then 1 else if c == '}' then -1 else 0

/-- Net brace depth of the characters of `text` in positions `[b, k)`. -/
def depthUpTo (text : List Char) (b k : Nat) : Int :=
  ((sliceL text b k).map braceDelta).sum

/-- The brace scan started at `b` never sees a `}` that brings the running
depth back to zero (the claim's "depth never returns to zero"). -/
def noClose (text : List Char) (b : Nat) : Prop :=
  ∀ k, k < text.length → b ≤ k → text.getD k ' ' = '}' → depthUpTo text b (k + 1) ≠ 0

instance noCloseDecidable (text : List Char) (b : Nat) : Decidable (noClose text b) := by
  unfold noClose
  exact Nat.decidableBallLT _ _

/-- One position of `/\bnamespace\b/` (word boundary on both sides). -/
def nsWordAt (s : List Char) (p : Nat) : Bool :=
  (p == 0 || !isWordChar (s.getD (p - 1) ' ')) &&
  kwAt s p ("namespace".toList) &&
  !isWordChar (s.getD (p + 9) ' ')

def nsSearchGo (s : List Char) : Nat → Nat → Option Nat
  | 0, _ => none
  | fuel + 1, p =>
    if p < s.length then
      (if nsWordAt s p then some p else nsSearchGo s fuel (p + 1))
    else none

/-- JavaScript `combined.search(/\bnamespace\b/)` (`none` models `-1`).
Positions at or beyond `s.length - 8` cannot match, so scanning to the end
of the text is exhaustive. -/
def nsSearch (s : List Char) : Option Nat :=
  nsSearchGo s (s.length + 1) 0

/-- Multiline `^`: at offset 0 or right after a LineTerminator. -/
def lineStartAt (s : List Char) (p : Nat) : Bool :=
  p == 0 || isLineTerm (s.getD (p - 1) ' ')

/-- Multiline `$`: at end of text or right before a LineTerminator. -/
def lineEndAt (s : List Char) (p : Nat) : Bool :=
  p == s.length || isLineTerm (s.getD p ' ')

/-- Largest `k' ≤ k` with a line end at `base + k'` (the greedy `\s*$`
backtracking from the maximal whitespace run). -/
def trailEnd (s : List Char) (base : Nat) : Nat → Option Nat
  | 0 => if lineEndAt s base then some 0 else none
  | k + 1 =>
    if lineEndAt s (base + (k + 1)) then some (k + 1) else trailEnd s base k

/-- One attempt of `/^using\s+[^;]+;\s*$/gm` whose `^` already holds at `p`:
`using`, then at least one whitespace and at least one further non-semicolon
character before the first `;` at or after `p + 5`, then greedy trailing
whitespace ending at a line end.  Returns the end offset of the match. -/
def matchUsingAt (s : List Char) (p : Nat) : Option Nat :=
  if kwAt s p ("using".toList) then
    match indexOfFrom s ';' (p + 5) with
    | none => none
    | some r =>
      if isJsWs (s.getD (p + 5) ' ') && p + 7 ≤ r then
        match trailEnd s (r + 1) (((s.drop (r + 1)).takeWhile isJsWs).length) with
        | none => none
        | some k => some (r + 1 + k)
      else none
  else none

def usingScanGo (s : List Char) : Nat → Nat → List (List Char)
  | 0, _ => []
  | fuel + 1, p =>
    if p < s.length then
      if lineStartAt s p then
        match matchUsingAt s p with
        | some e => sliceL s p e :: usingScanGo s fuel e
        | none => usingScanGo s fuel (p + 1)
      else usingScanGo s fuel (p + 1)
    else []

/-- `headerBlock.match(/^using\s+[^;]+;\s*$/gm)`: the matched substrings in
order (`[]` models the `null` result). -/
def usingMatches (s : List Char) : List (List Char) :=
  usingScanGo s (s.length + 1) 0

/-- `Array.prototype.join('\n')`. -/
def joinNL (ls : List (List Char)) : List Char :=
  List.intercalate ['\n'] ls

/-- The header extraction of `decompileAndSplit` (src/unnamed/part_000, lines
36-38): the region before the first `\bnamespace\b` (empty if that occurrence
is absent or at offset 0), filtered through the `using`-directive regex and
joined with newlines. -/
def extractHeader (text : List Char) : List Char :=
  joinNL (usingMatches
    (match nsSearch text with
     | some idx => if 0 < idx then sliceL text 0 idx else []
     | none => []))

/-- The kind-keyword alternation `(class|struct|interface|enum|record)` at
position `p`; at most one alternative can match, and none of them can match
at a position where a modifier keyword or a whitespace character matches, so
the greedy modifier munch below is exact.  Returns the keyword length. -/
def kindMatchAt (s : List Char) (p : Nat) : Option Nat :=
  if kwAt s p ("class".toList) then some 5
  else if kwAt s p ("struct".toList) then some 6
  else if kwAt s p ("interface".toList) then some 9
  else if kwAt s p ("enum".toList) then some 4
  else if kwAt s p ("record".toList) then some 6
  else none

def munchGo (s : List Char) : Nat → Nat → Nat
  | 0, p => p
  | fuel + 1, p =>
    if p < s.length then
      if kwAt s p ("public".toList) then munchGo s fuel (p + 6)
      else if kwAt s p ("internal".toList) then munchGo s fuel (p + 8)
      else if kwAt s p ("protected".toList) then munchGo s fuel (p + 9)
      else if kwAt s p ("private".toList) then munchGo s fuel (p + 7)
      else if kwAt s p ("sealed".toList) then munchGo s fuel (p + 6)
      else if kwAt s p ("abstract".toList) then munchGo s fuel (p + 8)
      else if kwAt s p ("static".toList) then munchGo s fuel (p + 6)
      else if kwAt s p ("partial".toList) then munchGo s fuel (p + 7)
      else if kwAt s p ("readonly".toList) then munchGo s fuel (p + 8)
      else if kwAt s p ("ref".toList) then munchGo s fuel (p + 3)
      else if kwAt s p ("unsafe".toList) then munchGo s fuel (p + 6)
      else if kwAt s p ("new".toList) then munchGo s fuel (p + 3)
      else if isJsWs (s.getD p ' ') then munchGo s fuel (p + 1)
      else p
    else p

/-- The deterministic maximal munch of `\s*(?:public|internal|...|new|\s)*\s*`:
no two alternatives can match at the same position, so the munch path is
unique and each step consumes at least one character. -/
def munchMods (s : List Char) (p : Nat) : Nat :=
  munchGo s (s.length + 1) p

/-- The body of the type regex after its `(^|\n)` anchor, starting at `q`:
modifier munch, kind keyword, mandatory whitespace, identifier
`[A-Za-z_][A-Za-z0-9_]*`.  Returns the type name (the optional generic
suffix `(?:\s*<[^>]+>)?` only extends the unused match end). -/
def typeBodyAt (s : List Char) (q : Nat) : Option (List Char) :=
  match kindMatchAt s (munchMods s q) with
  | none => none
  | some klen =>
    let a := munchMods s q + klen
    let ws1 := ((s.drop a).takeWhile isJsWs).length
    if ws1 == 0 then none
    else
      match (s.drop (a + ws1)).head? with
      | none => none
      | some c =>
        if c.isAlpha || c == '_' then
          some ((s.drop (a + ws1)).takeWhile (fun ch => ch.isAlphanum || ch == '_'))
        else none

/-- One attempt of the type regex at match position `i`: the `(^|\n)` group
matches empty via `^` (only at offset 0 — the regex has no `m` flag) or
consumes a `'\n'`.  Returns `start = match.index + match[1].length` and the
captured type name. -/
def tryAnchorAt (s : List Char) (i : Nat) : Option (Nat × List Char) :=
  match (if i == 0 then typeBodyAt s 0 else none) with
  | some nm => some (0, nm)
  | none =>
    if s.getD i ' ' == '\n' then
      match typeBodyAt s (i + 1) with
      | some nm => some (i + 1, nm)
      | none => none
    else none

def findTypeGo (s : List Char) : Nat → Nat → Option (Nat × List Char)
  | 0, _ => none
  | fuel + 1, i =>
    if i < s.length then
      match tryAnchorAt s i with
      | some r => some r
      | none => findTypeGo s fuel (i + 1)
    else none

/-- `exec` of the (global) type regex with `lastIndex = i`: leftmost match
position at or after `i`. -/
def findType (s : List Char) (i : Nat) : Option (Nat × List Char) :=
  findTypeGo s (s.length + 1) i

/-- The match-processing loop of `_splitTypes`: after each match the code
overwrites `typeRegex.lastIndex` with the end of the consumed chunk.  For a
match with no `{` anywhere at or after `start`, the chunk runs through the
next `;` (or end of text); otherwise it runs through the brace-matched
close of the first `{` at or after `start`.  Note `result.set` overwrites a
duplicate type name (unlike the namespace partitioner's append helper). -/
def splitTypesGo (code : List Char) : Nat → Nat → SMap → SMap
  | 0, _, m => m
  | fuel + 1, i, m =>
    match findType code i with
    | none => m
    | some (start, nm) =>
      match indexOfFrom code '{' start with
      | none =>
        splitTypesGo code fuel
          (match indexOfFrom code ';' start with | none => code.length | some semi => semi + 1)
          (mapSet m nm (jsTrim (sliceL code start
            (match indexOfFrom code ';' start with | none => code.length | some semi => semi + 1))))
      | some braceStart =>
        splitTypesGo code fuel (braceLoop code braceStart 0)
          (mapSet m nm (jsTrim (sliceL code start (braceLoop code braceStart 0))))

/-- `DecompilerService._splitTypes` (src/index.js, lines 255-290).  The scan
position is nondecreasing and advances by at least one per iteration on all
inputs whose matches do not contain a `{` inside a generic parameter list
(on the pathological exceptions the JavaScript loop never terminates), so
`code.length + 2` fuel dominates the iteration count. -/
def splitTypes (code : List Char) : SMap :=
  splitTypesGo code (code.length + 2) 0 []

/-- Claim C1 (code_bug evidence): on the spec's two-file-scoped-declaration
example, the partitioner does not slice from just after each terminating
semicolon.  The token-collection loop ends with `exec` returning `null`,
which resets the global regex's `lastIndex` to `0`, so each file-scoped
slice starts at offset 0: unit `A` receives the text up to the second
declaration (including `A`'s own declaration) and unit `B` receives the
whole text, instead of `foo();` and `bar();`. -/
theorem c1_file_scoped_behavior :
    splitByNamespace ("namespace A;\nfoo();\nnamespace B;\nbar();".toList) =
      [("A".toList, "namespace A;\nfoo();\n".toList),
       ("B".toList, "namespace A;\nfoo();\nnamespace B;\nbar();\n".toList)] ∧
    mapGet (splitByNamespace ("namespace A;\nfoo();\nnamespace B;\nbar();".toList))
        ("A".toList) ≠ some ("foo();\n".toList) := by
  decide

/-- Claim C2 (counterexample): contrary to the claim, the partitioner does
create a separate mapping entry keyed `A.B` for the nested declaration —
every token is processed, including tokens inside an already consumed block. -/
theorem c2_nested_creates_entry :
    mapGet (splitByNamespace ("namespace A \x7b namespace A.B \x7b Z \x7d \x7d".toList))
        ("A.B".toList) = some ("Z\n".toList) := by
  decide

/-- Claim C2 (amended): unit `A`'s body is indeed the entire nested region
including the nested declaration keyword, but the nested token is also
processed on its own brace match, adding an `A.B` entry; the cursor then
moves back to the nested close, so the parent's final `}` lands in
`(global)`. -/
theorem c2_nested_partition_amended :
    splitByNamespace ("namespace A \x7b namespace A.B \x7b Z \x7d \x7d".toList) =
      [("A".toList, "namespace A.B \x7b Z \x7d\n".toList),
       ("A.B".toList, "Z\n".toList),
       (globalKey, "\x7d\n".toList)] := by
  decide

/-- Claim C3 (counterexample): on the unmatched-brace input the partitioner
does not fail, but unit `A`'s body is not the entire text following the
opening brace: the block slice always excludes its last character (meant to
be the closing brace), so the final `d` of `unterminated` is lost. -/
theorem c3_unterminated_drops_last_char :
    splitByNamespace ("namespace A \x7b unterminated".toList) =
      [("A".toList, "unterminate\n".toList)] ∧
    mapGet (splitByNamespace ("namespace A \x7b unterminated".toList)) ("A".toList) ≠
      some ("unterminated\n".toList) := by
  decide

/-- Claim C4 (counterexample): with zero namespace tokens the single
`(global)` entry holds the input verbatim — `result.set('(global)', text)`
does not trim, so a surrounding-whitespace input refutes the claim. -/
theorem c4_global_body_not_trimmed :
    splitByNamespace (" x ".toList) = [(globalKey, " x ".toList)] ∧
    " x ".toList ≠ jsTrim (" x ".toList) := by
  decide

/-- Claim C4 (amended): for every text on which the tokenizer produces zero
tokens, `partition` returns exactly one entry, keyed `(global)`, whose body
is the input text verbatim (untrimmed, with no trailing newline added). -/
theorem c4_no_tokens_amended (text : List Char) (h : nsTokens text = []) :
    splitByNamespace text = [(globalKey, text)] := by
  simp [splitByNamespace, h]

theorem c4_no_tokens_amended_witness :
    splitByNamespace ("hello".toList) = [(globalKey, "hello".toList)] :=
  c4_no_tokens_amended ("hello".toList) (by decide)

/-- Claim C6 (counterexample): on the spec's own example the extractor does
not return `"using System;\nusing System.IO;"`.  The final directive
precedes the end of the header block, so the greedy `\s*$` of the directive
regex absorbs the line's terminating newline, leaving a trailing newline on
the result. -/
theorem c6_header_counterexample :
    extractHeader ("using System;\nusing System.IO;\nnamespace X \x7b \x7d".toList) =
      "using System;\nusing System.IO;\n".toList ∧
    extractHeader ("using System;\nusing System.IO;\nnamespace X \x7b \x7d".toList) ≠
      "using System;\nusing System.IO;".toList := by
  decide

/-- Claim C6 (amended): directive lines are collected only when `using`
starts at the very beginning of the line (the regex `^using...` allows no
leading whitespace), and the directive adjacent to the end of the header
block keeps its trailing newline. -/
theorem c6_header_amended :
    extractHeader ("using System;\nusing System.IO;\nnamespace X \x7b \x7d".toList) =
      "using System;\nusing System.IO;\n".toList ∧
    extractHeader ("  using System;\nnamespace X \x7b \x7d".toList) = [] ∧
    extractHeader (" using A;\nusing B;\nnamespace X \x7b \x7d".toList) =
      "using B;\n".toList := by
  decide

/-- Claim C7 (counterexample): the bodyless `record` declaration is followed
by a brace-bodied `class` later in the text, so the semicolon path is not
taken (`code.indexOf('{', start)` searches the whole remainder, not just up
to the next semicolon): the record's chunk is brace-matched through the
class body, swallowing it, and no separate `C` entry is produced. -/
theorem c7_semicolon_path_counterexample :
    splitTypes ("record R(int x);\nclass C \x7b \x7d".toList) =
      [("R".toList, "record R(int x);\nclass C \x7b \x7d".toList)] ∧
    mapGet (splitTypes ("record R(int x);\nclass C \x7b \x7d".toList)) ("C".toList) =
      none := by
  decide

/-- Claim C7 (amended): the semicolon path applies only when no opening
brace occurs anywhere at or after the match start; in that case the chunk
runs from the match start through the next semicolon inclusive (trimmed)
and the scan resumes immediately after it, so a following bodyless
declaration is still emitted as its own chunk. -/
theorem c7_semicolon_path_amended :
    splitTypes ("public record R(int x);".toList) =
      [("R".toList, "public record R(int x);".toList)] ∧
    splitTypes ("record A(int x);\nrecord B(int y);".toList) =
      [("A".toList, "record A(int x);".toList),
       ("B".toList, "record B(int y);".toList)] := by
  decide

/-- Claim C10: the `append` helper returns the map unchanged on an empty
chunk, and consequently a block namespace with an empty body produces no
entry at all: `partition "namespace A {}"` is the empty mapping. -/
theorem c10_empty_chunk_skipped :
    (∀ (m : SMap) (ns : List Char), appendChunk m ns [] = m) ∧
    splitByNamespace ("namespace A \x7b\x7d".toList) = [] := by
  exact ⟨fun m ns => rfl, by decide⟩

theorem svcAppendChunk_eq :
    ∀ (m : SMap) (ns c : List Char), svcAppendChunk m ns c = appendChunk m ns c :=
  fun _ _ _ => rfl

theorem svcNsTokensGo_eq (s : List Char) :
    ∀ fuel p, svcNsTokensGo s fuel p = nsTokensGo s fuel p := by
  intro fuel
  induction fuel with
  | zero => intro p; rfl
  | succ n ih =>
    intro p
    cases h : nsFind s p <;> simp [svcNsTokensGo, nsTokensGo, h, ih]

theorem svcNsTokens_eq (s : List Char) : svcNsTokens s = nsTokens s :=
  svcNsTokensGo_eq s (s.length + 1) 0

theorem svcSplitGo_eq (text : List Char) :
    ∀ (toks : List NsTok) (cursor : Nat) (m : SMap),
      svcSplitGo text toks cursor m = splitGo text toks cursor m := by
  intro toks
  induction toks with
  | nil => intro c m; rfl
  | cons t rest ih =>
    intro c m
    cases hk : t.kind
    · simp only [svcSplitGo, splitGo, hk, svcAppendChunk_eq, ih]
    · cases hio : indexOfFrom text '{' t.index <;>
        simp only [svcSplitGo, splitGo, hk, hio, svcAppendChunk_eq, ih]

theorem svcSplitTail_eq :
    ∀ (text : List Char) (r : SMap × Nat), svcSplitTail text r = splitTail text r :=
  fun _ _ => rfl

/-- Claim C9: `DecompilerService._splitByNamespace` in src/index.js and the
exported `splitByNamespace` of the decompiler module are duplicate
implementations of the same partitioner and return identical mappings (same
keys in the same insertion order, with equal bodies) on every input. -/
theorem c9_duplicate_impls_agree (text : List Char) :
    svcSplitByNamespace text = splitByNamespace text := by
  simp only [svcSplitByNamespace, splitByNamespace, svcNsTokens_eq]
  cases h : nsTokens text with
  | nil => rfl
  | cons t0 rest =>
    simp only [svcSplitTail_eq, svcSplitGo_eq, svcAppendChunk_eq]

theorem kindMatchAt_of_ge (s : List Char) (i : Nat) (h : s.length ≤ i) :
    kindMatchAt s i = none := by
  have hd : s.drop i = [] := List.drop_eq_nil_of_le h
  simp only [kindMatchAt, kwAt, hd, List.take_nil]
  decide

theorem typeBodyAt_none (s : List Char) (h : ∀ i, i < s.length → kindMatchAt s i = none) :
    ∀ q, typeBodyAt s q = none := by
  have hall : ∀ i, kindMatchAt s i = none := by
    intro i
    by_cases hi : i < s.length
    · exact h i hi
    · exact kindMatchAt_of_ge s i (by omega)
  intro q
  simp [typeBodyAt, hall]

theorem tryAnchorAt_none (s : List Char) (h : ∀ i, i < s.length → kindMatchAt s i = none) :
    ∀ i, tryAnchorAt s i = none := by
  intro i
  simp [tryAnchorAt, typeBodyAt_none s h]

theorem findTypeGo_none (s : List Char) (h : ∀ i, i < s.length → kindMatchAt s i = none) :
    ∀ fuel i, findTypeGo s fuel i = none := by
  intro fuel
  induction fuel with
  | zero => intro i; rfl
  | succ n ih => intro i; simp [findTypeGo, tryAnchorAt_none s h, ih]

theorem splitTypes_no_kind (code : List Char)
    (h : ∀ i, i < code.length → kindMatchAt code i = none) :
    splitTypes code = [] := by
  show splitTypesGo code (code.length + 1 + 1) 0 [] = []
  simp [splitTypesGo, findType, findTypeGo_none code h]

/-- Claim C8: the core is total — every scanner in the embedding is a total
function of its string input (no partiality is needed to model any of them);
in particular the partitioner maps the empty string to a single `(global)`
unit with empty body, the header extractor maps it to the empty string, and
a body with no occurrence of a type-kind keyword yields an empty type map. -/
theorem c8_totality :
    splitByNamespace ("".toList) = [(globalKey, "".toList)] ∧
    extractHeader ("".toList) = [] ∧
    ∀ code : List Char, (∀ i, i < code.length → kindMatchAt code i = none) →
      splitTypes code = [] := by
  refine ⟨by decide, by decide, ?_⟩
  intro code h
  exact splitTypes_no_kind code h

theorem c8_totality_witness : splitTypes ("int x = 5;".toList) = [] :=
  c8_totality.2.2 ("int x = 5;".toList) (by decide)

theorem sliceL_self (text : List Char) (b : Nat) : sliceL text b b = [] :=
  List.drop_eq_nil_of_le (List.length_take_le b text)

theorem sliceL_snoc (text : List Char) (b j : Nat) (hb : b ≤ j) (hj : j < text.length) :
    sliceL text b (j + 1) = sliceL text b j ++ [text.getD j ' '] := by
  have hget : text[j]? = some (text.getD j ' ') := by
    rw [List.getElem?_eq_getElem hj]
    rw [List.getD_eq_getElem?_getD, List.getElem?_eq_getElem hj]
    rfl
  have h1 : text.take (j + 1) = text.take j ++ [text.getD j ' '] := by
    rw [List.take_succ, hget]
    rfl
  have h2 : (text.take j).length = j := by
    simp [List.length_take]
    omega
  simp only [sliceL, h1]
  rw [List.drop_append_of_le_length (by omega)]

theorem depthUpTo_succ (text : List Char) (b j : Nat) (hb : b ≤ j) (hj : j < text.length) :
    depthUpTo text b (j + 1) = depthUpTo text b j + braceDelta (text.getD j ' ') := by
  simp [depthUpTo, sliceL_snoc text b j hb hj]

theorem braceGo_noClose (text : List Char) (b : Nat) (h : noClose text b) :
    ∀ fuel j, fuel = text.length - j → b ≤ j → j ≤ text.length →
      braceGo text fuel j (depthUpTo text b j) = text.length := by
  intro fuel
  induction fuel with
  | zero =>
    intro j hf hb hj
    have hjl : j = text.length := by omega
    simp [braceGo, hjl]
  | succ n ih =>
    intro j hf hb hj
    have hjlt : j < text.length := by omega
    have hstep : depthUpTo text b (j + 1) = depthUpTo text b j + braceDelta (text.getD j ' ') :=
      depthUpTo_succ text b j hb hjlt
    simp only [braceGo, if_pos hjlt]
    by_cases hcb : (text.getD j ' ' == '{') = true
    · rw [if_pos hcb]
      have he : depthUpTo text b j + 1 = depthUpTo text b (j + 1) := by
        have hd1 : braceDelta (text.getD j ' ') = 1 := by
          simp only [braceDelta]
          rw [if_pos hcb]
        rw [hstep, hd1]
      rw [he]
      exact ih (j + 1) (by omega) (by omega) (by omega)
    · rw [if_neg hcb]
      by_cases hce : (text.getD j ' ' == '}') = true
      · rw [if_pos hce]
        have hd : depthUpTo text b j - 1 = depthUpTo text b (j + 1) := by
          have hd1 : braceDelta (text.getD j ' ') = -1 := by
            simp only [braceDelta]
            rw [if_neg hcb, if_pos hce]
          rw [hstep, hd1]
          omega
        have hnz : depthUpTo text b (j + 1) ≠ 0 :=
          h j hjlt hb (eq_of_beq hce)
        have hfalse : (depthUpTo text b j - 1 == 0) = false := by
          rw [hd]
          exact beq_eq_false_iff_ne.mpr hnz
        rw [if_neg (by simp [hfalse])]
        rw [hd]
        exact ih (j + 1) (by omega) (by omega) (by omega)
      · rw [if_neg hce]
        have he : depthUpTo text b j = depthUpTo text b (j + 1) := by
          have hd1 : braceDelta (text.getD j ' ') = 0 := by
            simp only [braceDelta]
            rw [if_neg hcb, if_neg hce]
          rw [hstep, hd1]
          omega
        rw [he]
        exact ih (j + 1) (by omega) (by omega) (by omega)

/-- Claim C3 (amended): when the brace scan started at `b` never sees a `}`
bringing the depth back to zero, the scan runs to end-of-text without
failing; the extracted body is then the text after the opening brace
excluding the final character of the text (the slice unconditionally strips
one trailing character as if it were the closing brace), as the concrete
unmatched-brace example shows: `A`'s body is `unterminate`, not
`unterminated`. -/
theorem c3_unterminated_amended :
    (∀ (text : List Char) (b : Nat), b ≤ text.length → noClose text b →
        braceLoop text b 0 = text.length) ∧
    splitByNamespace ("namespace A \x7b unterminated".toList) =
      [("A".toList, "unterminate\n".toList)] := by
  constructor
  · intro text b hb hnc
    have h0 : depthUpTo text b b = 0 := by simp [depthUpTo, sliceL_self]
    have hgo := braceGo_noClose text b hnc (text.length - b) b rfl le_rfl hb
    rw [h0] at hgo
    exact hgo
  · decide

theorem c3_unterminated_amended_witness :
    braceLoop ("namespace A \x7b unterminated".toList) 12 0 =
      ("namespace A \x7b unterminated".toList).length :=
  c3_unterminated_amended.1 ("namespace A \x7b unterminated".toList) 12 (by decide) (by decide)

theorem mapGet_mapSet_self (m : SMap) (k v : List Char) : mapGet (mapSet m k v) k = some v := by
  induction m with
  | nil => simp [mapSet, mapGet]
  | cons e rest ih =>
    obtain ⟨k', v'⟩ := e
    cases h : (k' == k)
    · simp [mapSet, mapGet, h, ih]
    · simp [mapSet, mapGet, h]

theorem mapGet_mapSet_ne (m : SMap) (k1 k2 v : List Char) (h : k1 ≠ k2) :
    mapGet (mapSet m k1 v) k2 = mapGet m k2 := by
  have hb : (k1 == k2) = false := beq_eq_false_iff_ne.mpr h
  induction m with
  | nil => simp [mapSet, mapGet, hb]
  | cons e rest ih =>
    obtain ⟨k', v'⟩ := e
    cases h1 : (k' == k1)
    · simp [mapSet, mapGet, h1, ih]
    · have hk' : k' = k1 := eq_of_beq h1
      simp [mapSet, mapGet, h1, hk', hb]

theorem concatChunks_cons (c : List Char) (cs : List (List Char)) :
    concatChunks (c :: cs) = jsTrim c ++ ['\n'] ++ concatChunks cs := by
  simp [concatChunks]

theorem chunksFor_cons_skip (ns ch : List Char) (rs : List (List Char × List Char))
    (k : List Char) (h : (ns == k && !ch.isEmpty) = false) :
    chunksFor ((ns, ch) :: rs) k = chunksFor rs k := by
  simp [chunksFor, List.filter, h]

theorem chunksFor_cons_keep (ns ch : List Char) (rs : List (List Char × List Char))
    (k : List Char) (h : (ns == k && !ch.isEmpty) = true) :
    chunksFor ((ns, ch) :: rs) k = ch :: chunksFor rs k := by
  simp only [chunksFor, List.filter, h]
  rfl

theorem mapGet_foldAppend (k : List Char) :
    ∀ (rs : List (List Char × List Char)) (m : SMap),
      mapGet (foldAppend m rs) k =
        if mapGet m k = none ∧ chunksFor rs k = [] then none
        else some ((mapGet m k).getD [] ++ concatChunks (chunksFor rs k)) := by
  intro rs
  induction rs with
  | nil =>
    intro m
    cases h : mapGet m k <;> simp [foldAppend, chunksFor, concatChunks, h]
  | cons e rs ih =>
    intro m
    obtain ⟨ns, ch⟩ := e
    have hstep : foldAppend m ((ns, ch) :: rs) = foldAppend (appendChunk m ns ch) rs := rfl
    rw [hstep, ih]
    by_cases hch : ch.isEmpty
    · have h1 : appendChunk m ns ch = m := by simp [appendChunk, hch]
      have h2 : chunksFor ((ns, ch) :: rs) k = chunksFor rs k :=
        chunksFor_cons_skip ns ch rs k (by simp [hch])
      rw [h1, h2]
    · cases hk : (ns == k)
      · have h1 : mapGet (appendChunk m ns ch) k = mapGet m k := by
          simp only [appendChunk, hch, Bool.false_eq_true, if_false]
          exact mapGet_mapSet_ne m ns k _ (by simpa using (beq_eq_false_iff_ne).mp hk)
        have h2 : chunksFor ((ns, ch) :: rs) k = chunksFor rs k :=
          chunksFor_cons_skip ns ch rs k (by simp [hk])
        rw [h1, h2]
      · have hnsk : ns = k := eq_of_beq hk
        subst hnsk
        have h1 : mapGet (appendChunk m ns ch) ns =
            some ((mapGet m ns).getD [] ++ jsTrim ch ++ ['\n']) := by
          simp only [appendChunk, hch, Bool.false_eq_true, if_false]
          exact mapGet_mapSet_self m ns _
        have h2 : chunksFor ((ns, ch) :: rs) ns = ch :: chunksFor rs ns :=
          chunksFor_cons_keep ns ch rs ns (by simp [hch])
        rw [h1, h2, concatChunks_cons]
        simp

theorem foldAppend_append (m : SMap) (xs ys : List (List Char × List Char)) :
    foldAppend m (xs ++ ys) = foldAppend (foldAppend m xs) ys := by
  simp [foldAppend, List.foldl_append]

theorem splitGo_regions (text : List Char) :
    ∀ (toks : List NsTok) (cursor : Nat) (m : SMap),
      splitGo text toks cursor m =
        (foldAppend m (goRegions text toks cursor).1, (goRegions text toks cursor).2) := by
  intro toks
  induction toks with
  | nil => intro c m; rfl
  | cons t rest ih =>
    intro c m
    cases hk : t.kind
    · simp only [splitGo, goRegions, hk]
      rw [ih]
      rfl
    · cases hio : indexOfFrom text '{' t.index
      · simp only [splitGo, goRegions, hk, hio]
        exact ih c m
      · simp only [splitGo, goRegions, hk, hio]
        rw [ih]
        rfl

theorem splitByNamespace_regions (text : List Char) (h : nsTokens text ≠ []) :
    splitByNamespace text = foldAppend [] (regionsOf text) := by
  cases htok : nsTokens text with
  | nil => exact absurd htok h
  | cons t0 rest =>
    simp only [splitByNamespace, regionsOf, htok]
    rw [splitGo_regions]
    rw [foldAppend_append]
    have hpre : foldAppend []
        (if 0 < t0.index then [(globalKey, sliceL text 0 t0.index)] else []) =
        (if 0 < t0.index then appendChunk [] globalKey (sliceL text 0 t0.index) else []) := by
      by_cases h0 : 0 < t0.index <;> simp [h0, foldAppend]
    rw [hpre]
    generalize (if 0 < t0.index then appendChunk [] globalKey (sliceL text 0 t0.index) else []) = m0
    generalize hG : goRegions text (t0 :: rest) 0 = G
    obtain ⟨R1, R2⟩ := G
    simp only [splitTail, regionsTail]
    by_cases hc : R2 < text.length
    · simp only [hc, if_true]
      rw [foldAppend_append]
      rfl
    · simp only [hc, if_false]

/-- Claim C5: whenever the partitioner attributes several (nonempty) regions
to one namespace name, the final entry for that name is exactly the
concatenation, in encounter order, of each region's trimmed text followed
by a newline — earlier regions are appended to, never overwritten or
dropped (`regionsOf` lists the append events of the run in encounter
order). -/
theorem c5_append_concat (text nm : List Char)
    (h0 : nsTokens text ≠ [])
    (h1 : chunksFor (regionsOf text) nm ≠ []) :
    mapGet (splitByNamespace text) nm =
      some (concatChunks (chunksFor (regionsOf text) nm)) := by
  rw [splitByNamespace_regions text h0, mapGet_foldAppend]
  simp [mapGet, h1]

theorem c5_append_concat_witness :
    mapGet (splitByNamespace ("namespace A \x7b x \x7d namespace A \x7b y \x7d".toList))
      ("A".toList) = some ("x\ny\n".toList) := by
  have h := c5_append_concat ("namespace A \x7b x \x7d namespace A \x7b y \x7d".toList)
    ("A".toList) (by decide) (by decide)
  rw [h]
  decide

theorem c9_duplicate_impls_agree_witness :
    svcSplitByNamespace ("namespace A;\nx();".toList) =
      splitByNamespace ("namespace A;\nx();".toList) :=
  c9_duplicate_impls_agree ("namespace A;\nx();".toList)

theorem c10_empty_chunk_skipped_witness :
    appendChunk [] ("N".toList) [] = [] :=
  c10_empty_chunk_skipped.1 [] ("N".toList)
